import Mathlib

/-!
Shallow embedding of the two crawler scripts of the
`modavis-project/musical-instrument-classes` repository
(`scripts/hornbostelSachs_data.py` and `scripts/translation_data.py`),
together with theorems settling the specification claims about them.

The scripts are synchronous crawlers over a remote taxonomy service.  We
embed them as pure Lean functions over an explicit environment `Env`
describing the remote responses, explicit state `St` for the two
process-wide mutable variables (`counter['count']` and `failed_urls`),
and `Except PyError` for Python exceptions.
-/

namespace MIC

/-- Python exceptions that the embedded code can raise. -/
inductive PyError where
  /-- `TypeError`, e.g. `'x' in None` or list[str] assignment. -/
  | typeError
  /-- `KeyError` from a failing dict subscript. -/
  | keyError
  /-- `IndexError`, e.g. `[][-1]`. -/
  | indexError
  /-- `UnboundLocalError`: local variable referenced before assignment. -/
  | unboundLocalError
deriving DecidableEq, Repr

/-- The process-wide mutable state shared by the crawl: the module-level
`counter = {'count': 0}` and `failed_urls = []`. -/
structure St where
  count : Nat
  failed : List String
deriving DecidableEq, Repr

/-- Python dict subscript-assignment `d[k] = v` on an insertion-ordered
association list: an existing key keeps its position and gets the new
value, a fresh key is appended at the end. -/
def dictSet {K V : Type} [DecidableEq K] (d : List (K × V)) (k : K) (v : V) :
    List (K × V) :=
  if d.any (fun p => p.1 = k) then
    d.map (fun p => if p.1 = k then (k, v) else p)
  else d ++ [(k, v)]

/-- Python `dict(pairs)`: fold the pairs into an empty dict with `dictSet`
semantics (first occurrence fixes the position, last occurrence the value). -/
def pyDict {K V : Type} [DecidableEq K] (l : List (K × V)) : List (K × V) :=
  l.foldl (fun d p => dictSet d p.1 p.2) []

/-- Lookup in an insertion-ordered association list (Python dict subscript
read `d[k]`, as an `Option` so the caller can raise `KeyError`). -/
def assocFind {K V : Type} [DecidableEq K] (l : List (K × V)) (k : K) :
    Option V :=
  match l with
  | [] => none
  | p :: rest => if p.1 = k then some p.2 else assocFind rest k

/-- A child descriptor in a hierarchy response or in the `topconcepts`
list: `{uri, label, notation, hasChildren}`.  The source's third field is
a reserved word in Lean, so it is called `code` here. -/
structure ChildEntry where
  uri : String
  label : String
  code : String
  hasChildren : Bool
deriving DecidableEq, Repr

/-- The value a URI maps to inside `broaderTransitive`: a dict that may or
may not contain the key `narrower` (a list of child descriptors). -/
structure UriEntry where
  narrower : Option (List ChildEntry)
deriving DecidableEq, Repr

/-- A parsed hierarchy-endpoint body: a dict that may or may not contain
the top-level key `broaderTransitive`, whose value maps URIs to entries
(insertion-ordered, as a Python dict). -/
structure HierarchyData where
  broaderTransitive : Option (List (String × UriEntry))
deriving DecidableEq, Repr

/-- An HTTP response carrying a JSON body already parsed to `α`. -/
structure JsonResp (α : Type) where
  status : Nat
  body : α
deriving DecidableEq, Repr

/-- The response of the HTML description page of a class: its status code
and the list of texts that the XPath
`//div[contains(@class, "property-value-wrapper")]/ul/li/span/text()`
extracts from its content, in document order. -/
structure HtmlResp where
  status : Nat
  texts : List String
deriving DecidableEq, Repr

/-- One entry of the `mappings` field of the mappings endpoint; only its
`prefLabel` field is read by the script. -/
structure MappingEntry where
  prefLabel : String
deriving DecidableEq, Repr

/-- Body of the mappings endpoint: `{'mappings': [...] | null}`. -/
structure MappingsData where
  mappings : Option (List MappingEntry)
deriving DecidableEq, Repr

/-- Body of the topConcepts endpoint: `{'topconcepts': [...]}`. -/
structure TopConceptsData where
  topconcepts : List ChildEntry
deriving DecidableEq, Repr

/-- The remote service as seen by `hornbostelSachs_data.py`: what each
endpoint answers for a given page number / URI during this run. -/
structure Env where
  topConcepts : JsonResp TopConceptsData
  hierarchy : String → JsonResp HierarchyData
  descPage : String → HtmlResp
  mappingsApi : String → JsonResp MappingsData

/-- `BASE_URL` of `hornbostelSachs_data.py`. -/
def BASE_URL : String :=
  "https://vocabulary.mimo-international.com/rest/v1/HornbostelAndSachs"

/-- The URL built by `fetch_hierarchy` for a page. -/
def hierarchyUrl (page : String) : String :=
  BASE_URL ++ "/hierarchy?uri=http%3A%2F%2Fwww.mimo-db.eu%2FHornbostelAndSachs%2F"
    ++ page ++ "&lang=en"

/-- The URL built by `get_instrument_names_for_page` for a page. -/
def mappingsUrl (page : String) : String :=
  BASE_URL ++ "/mappings?uri=http%3A%2F%2Fwww.mimo-db.eu%2FHornbostelAndSachs%2F"
    ++ page ++ "&lang=en&clang=en"

/-- Python `str.split(sep)` for a one-character separator, on the string's
character list: splitting never yields an empty list of groups. -/
def splitOnChar (c : Char) : List Char → List (List Char)
  | [] => [[]]
  | a :: rest =>
    let r := splitOnChar c rest
    if a = c then [] :: r
    else
      match r with
      | [] => [[a]]
      | g :: gs => (a :: g) :: gs

/-- `get_page_number_from_uri`: `uri.split('/')[-1]`.  `str.split` always
returns a non-empty list, so the default of `getLastD` is dead. -/
def get_page_number_from_uri (uri : String) : String :=
  String.mk ((splitOnChar '/' uri.data).getLastD [])

/-- Python string comparison `a <= b`: lexicographic on code points. -/
def lexLe : List Char → List Char → Bool
  | [], _ => true
  | _ :: _, [] => false
  | a :: as, b :: bs =>
    if a < b then true else if b < a then false else lexLe as bs

/-- Python `a <= b` on strings, as a proposition. -/
def strLe (a b : String) : Prop := lexLe a.data b.data = true

instance : DecidableRel strLe := fun a b =>
  inferInstanceAs (Decidable (lexLe a.data b.data = true))

theorem lexLe_total (as bs : List Char) :
    lexLe as bs = true ∨ lexLe bs as = true := by
  induction as generalizing bs with
  | nil => exact Or.inl rfl
  | cons a as ih =>
    cases bs with
    | nil => exact Or.inr rfl
    | cons b bs =>
      rcases lt_trichotomy a b with h | h | h
      · left; simp [lexLe, h]
      · subst h
        rcases ih bs with h2 | h2 <;> simp [lexLe, lt_irrefl, h2]
      · right; simp [lexLe, h]

theorem lexLe_trans {as bs cs : List Char} (h1 : lexLe as bs = true)
    (h2 : lexLe bs cs = true) : lexLe as cs = true := by
  induction as generalizing bs cs with
  | nil => rfl
  | cons a as ih =>
    cases bs with
    | nil => simp [lexLe] at h1
    | cons b bs =>
      cases cs with
      | nil => simp [lexLe] at h2
      | cons c cs =>
        simp only [lexLe] at h1 h2 ⊢
        by_cases hab : a < b
        · by_cases hbc : b < c
          · simp [lt_trans hab hbc]
          · by_cases hcb : c < b
            · simp [hbc, hcb] at h2
            · have hbc2 : b = c := le_antisymm (not_lt.mp hcb) (not_lt.mp hbc)
              subst hbc2; simp [hab]
        · by_cases hba : b < a
          · simp [hab, hba] at h1
          · have hab2 : a = b := le_antisymm (not_lt.mp hba) (not_lt.mp hab)
            subst hab2
            simp only [lt_irrefl, if_false] at h1
            by_cases hbc : a < c
            · simp [hbc]
            · by_cases hcb : c < a
              · simp [hbc, hcb] at h2
              · simp only [hbc, hcb, if_false] at h2 ⊢
                exact ih h1 h2

theorem lexLe_antisymm {as bs : List Char} (h1 : lexLe as bs = true)
    (h2 : lexLe bs as = true) : as = bs := by
  induction as generalizing bs with
  | nil =>
    cases bs with
    | nil => rfl
    | cons b bs => simp [lexLe] at h2
  | cons a as ih =>
    cases bs with
    | nil => simp [lexLe] at h1
    | cons b bs =>
      simp only [lexLe] at h1 h2
      by_cases hab : a < b
      · simp [hab, asymm hab] at h2
      · by_cases hba : b < a
        · simp [hab, hba] at h1
        · have hab2 : a = b := le_antisymm (not_lt.mp hba) (not_lt.mp hab)
          subst hab2
          simp only [lt_irrefl, if_false] at h1 h2
          rw [ih h1 h2]

instance : IsTotal String strLe := ⟨fun a b => lexLe_total a.data b.data⟩

instance : IsTrans String strLe := ⟨fun _ _ _ => lexLe_trans⟩

theorem strLe_antisymm {a b : String} (h1 : strLe a b) (h2 : strLe b a) :
    a = b := by
  cases a; cases b
  exact congrArg String.mk (lexLe_antisymm h1 h2)

/-- The sort key relation used by `sorted(li_texts, key=len)`: compare
candidate strings by character count (Python `len` on `str` counts code
points, as does `String.length`). -/
def lenLe (a b : String) : Prop := a.length ≤ b.length

instance : DecidableRel lenLe := fun a b => Nat.decLe a.length b.length

instance : IsTotal String lenLe := ⟨fun a b => Nat.le_total a.length b.length⟩

instance : IsTrans String lenLe := ⟨fun _ _ _ => Nat.le_trans⟩

/-- Python `sorted(li_texts, key=len)`: a stable sort by length; every
stable sort by the same key computes the same list, so Mathlib's stable
`insertionSort` is a faithful model. -/
def pySortedByLen (l : List String) : List String := List.insertionSort lenLe l

/-- `get_description_from_uri`, as a function of the details-page response.
On a 200 status it evaluates `sorted(li_texts, key=len)[-1]` — which
raises `IndexError` when there are no candidates.  On any other status
`li_texts` was never assigned, so the `return` raises
`UnboundLocalError`, and nothing is appended to `failed_urls`. -/
def get_description_from_uri (resp : HtmlResp) : Except PyError String :=
  if resp.status = 200 then
    match (pySortedByLen resp.texts).getLast? with
    | some d => Except.ok d
    | none => Except.error PyError.indexError
  else Except.error PyError.unboundLocalError

/-- `get_instrument_names_for_page`: on non-200 it appends the URL to
`failed_urls` and returns `[]`; on 200 it returns `[]` when the
`mappings` field is `null`, else the `prefLabel` of every mapping entry
in source order. -/
def get_instrument_names_for_page (env : Env) (page : String) (s : St) :
    List String × St :=
  let resp := env.mappingsApi page
  if resp.status ≠ 200 then
    ([], ⟨s.count, s.failed ++ [mappingsUrl page]⟩)
  else
    match resp.body.mappings with
    | none => ([], s)
    | some ms => (ms.map MappingEntry.prefLabel, s)

/-- `fetch_hierarchy`: on non-200 it appends the URL to `failed_urls` and
returns `None`, else the parsed body. -/
def fetch_hierarchy (env : Env) (page : String) (s : St) :
    Option HierarchyData × St :=
  let resp := env.hierarchy page
  if resp.status ≠ 200 then
    (none, ⟨s.count, s.failed ++ [hierarchyUrl page]⟩)
  else (some resp.body, s)

/-- The body of `process_hierarchy`'s inner `for child_entry in ...`
loop.  The order of effects follows the source: first
`get_description_from_uri(child_uri)` (whose exceptions propagate), then
`get_instrument_names_for_page(child_page)` (which may extend
`failed_urls`), then the assignment `results[child_notation] = {...}`.
That assignment targets the module-level `results`, which is the *list*
`[]` bound at line 160 (the dict in `main` is a distinct local variable),
and a string-keyed subscript assignment on a list raises `TypeError`; the
counter update and the recursive expansion at lines 101-108 are therefore
unreachable. -/
def childrenLoop (env : Env) (children : List ChildEntry) (s : St) :
    Except PyError St :=
  match children with
  | [] => Except.ok s
  | c :: _rest =>
    match get_description_from_uri (env.descPage c.uri) with
    | Except.error e => Except.error e
    | Except.ok _desc =>
      let page := get_page_number_from_uri c.uri
      let (_names, _s1) := get_instrument_names_for_page env page s
      Except.error PyError.typeError

/-- The outer `for current_uri in uris` loop of `process_hierarchy`.
A URI whose entry lacks the `narrower` key is skipped; a URI absent from
the `broaderTransitive` dict would raise `KeyError`. -/
def uriLoop (env : Env) (bt : List (String × UriEntry)) :
    List String → St → Except PyError St
  | [], s => Except.ok s
  | u :: rest, s =>
    match assocFind bt u with
    | none => Except.error PyError.keyError
    | some entry =>
      match entry.narrower with
      | none => uriLoop env bt rest s
      | some children =>
        match childrenLoop env children s with
        | Except.error e => Except.error e
        | Except.ok s1 => uriLoop env bt rest s1

/-- `process_hierarchy(hierarchy_data, depth, uri)` of
`hornbostelSachs_data.py`, with `MAX_COUNT` as the parameter `mc`
(an `Int`, `-1` meaning "no cap").  Entry checks in source order: the
cap guard returns normally; `'broaderTransitive' not in hierarchy_data`
raises `TypeError` when `hierarchy_data` is `None` and returns normally
when the key is merely missing. -/
def processHierarchy (env : Env) (mc : Int) (hd : Option HierarchyData)
    (_depth : Nat) (uri : Option String) (s : St) : Except PyError St :=
  if mc ≠ -1 ∧ mc ≤ (s.count : Int) then Except.ok s
  else
    match hd with
    | none => Except.error PyError.typeError
    | some h =>
      match h.broaderTransitive with
      | none => Except.ok s
      | some bt =>
        let uris := match uri with
          | none => bt.map Prod.fst
          | some u => [u]
        uriLoop env bt uris s

/-- The value stored per notation code in `main`'s local `results` dict:
`{'Label': ..., 'Instruments': ..., 'Description': ..., 'MIMOPage': ...}`. -/
structure NodeVal where
  label : String
  instruments : List String
  description : String
  page : String
deriving DecidableEq, Repr

/-- Python `list.index` for strings: index of the first occurrence (the
absent-key case raises in Python and is unreachable here, where it is
mapped to the list's length). -/
def idxOf (k : String) : List String → Nat
  | [] => 0
  | a :: rest => if a = k then 0 else idxOf k rest + 1

/-- Python `sorted` on a list of strings: default string comparison
(lexicographic on code points), modelled by the stable `insertionSort`. -/
def pyKeysSorted (l : List String) : List String :=
  List.insertionSort strLe l

/-- `sort_results`: sort the dict's items by the position of their key in
the sorted key list, and rebuild a dict from the sorted items. -/
def sort_results {V : Type} (results : List (String × V)) : List (String × V) :=
  let ks := pyKeysSorted (results.map Prod.fst)
  pyDict (List.insertionSort (fun x y => idxOf x.1 ks ≤ idxOf y.1 ks) results)

/-- The `for item in data['topconcepts']` loop of `main`.  Items with
`hasChildren == False` are skipped entirely.  For the others the source
order of effects is: `get_instrument_names_for_page`, then
`get_description_from_uri` (exceptions propagate), then the assignment
into `main`'s local `results` dict, then the counter update with `break`,
then `fetch_hierarchy` and `process_hierarchy`. -/
def topLoop (env : Env) (mc : Int) :
    List ChildEntry → St → List (String × NodeVal) →
    Except PyError (St × List (String × NodeVal))
  | [], s, res => Except.ok (s, res)
  | item :: rest, s, res =>
    if item.hasChildren = true then
      let page := get_page_number_from_uri item.uri
      let (names, s1) := get_instrument_names_for_page env page s
      match get_description_from_uri (env.descPage item.uri) with
      | Except.error e => Except.error e
      | Except.ok desc =>
        let res1 := dictSet res item.code ⟨item.label, names, desc, page⟩
        if mc ≠ -1 then
          let s2 : St := ⟨s1.count + 1, s1.failed⟩
          if mc ≤ (s2.count : Int) then Except.ok (s2, res1)
          else
            let (hd, s3) := fetch_hierarchy env page s2
            match processHierarchy env mc hd 0 none s3 with
            | Except.error e => Except.error e
            | Except.ok s4 => topLoop env mc rest s4 res1
        else
          let (hd, s3) := fetch_hierarchy env page s1
          match processHierarchy env mc hd 0 none s3 with
          | Except.error e => Except.error e
          | Except.ok s4 => topLoop env mc rest s4 res1
    else topLoop env mc rest s res

/-- `main` of `hornbostelSachs_data.py`, returning the sorted results dict
that is written to `hornbostelSachs.json` together with the final
`failed_urls` list printed at the end.  A non-200 topConcepts response
only prints a message; the body is still parsed and iterated. -/
def mainRun (env : Env) (mc : Int) :
    Except PyError (List (String × NodeVal) × List String) :=
  match topLoop env mc env.topConcepts.body.topconcepts ⟨0, []⟩ [] with
  | Except.error e => Except.error e
  | Except.ok (s, res) => Except.ok (sort_results res, s.failed)

/-! ## The translation crawl (`translation_data.py`) -/

/-- An element of the parsed RDF/XML document: its (namespaced) tag, its
`rdf:about` and `xml:lang` attributes when present, its text, and its
direct children in document order. -/
inductive XElem : Type where
  | node (tag : String) (about : Option String) (lang : Option String)
      (text : Option String) (children : List XElem)

/-- Tag of an element. -/
def XElem.tag : XElem → String
  | .node t _ _ _ _ => t

/-- `rdf:about` attribute of an element. -/
def XElem.about : XElem → Option String
  | .node _ a _ _ _ => a

/-- `xml:lang` attribute of an element (`label.get(...)`, `None` when
absent). -/
def XElem.lang : XElem → Option String
  | .node _ _ l _ _ => l

/-- Text of an element (`label.text`, `None` when empty). -/
def XElem.text : XElem → Option String
  | .node _ _ _ tx _ => tx

/-- Direct children of an element. -/
def XElem.children : XElem → List XElem
  | .node _ _ _ _ ch => ch

mutual
/-- The XPath `//skos:Concept[@rdf:about=target]` evaluated from the
document root: every descendant-or-self element with tag `skos:Concept`
and a matching `rdf:about`, in document order. -/
def collectConcepts (target : String) : XElem → List XElem
  | XElem.node t ab lg tx ch =>
    (if t = "skos:Concept" ∧ ab = some target
      then [XElem.node t ab lg tx ch] else [])
      ++ collectConceptsL target ch

/-- `collectConcepts` mapped over a list of siblings. -/
def collectConceptsL (target : String) : List XElem → List XElem
  | [] => []
  | e :: es => collectConcepts target e ++ collectConceptsL target es
end

/-- The concept URI interpolated into the XPath of `get_translations`. -/
def conceptUri (page : String) : String :=
  "http://www.mimo-db.eu/InstrumentsKeywords/" ++ page

/-- The URL built by `get_translations` for a page
(`BASE_URL` of `translation_data.py`). -/
def translationDataUrl (page : String) : String :=
  "https://vocabulary.mimo-international.com/rest/v1/InstrumentsKeywords/data?uri=http%3A%2F%2Fwww.mimo-db.eu%2FInstrumentsKeywords%2F"
    ++ page ++ "&format=application/rdf%2Bxml"

/-- The RDF/XML response of the `data` endpoint. -/
structure XmlResp where
  status : Nat
  doc : XElem

/-- `get_translations(page)` of `translation_data.py`, as a function of
the `data`-endpoint response.  On non-200 it appends the URL to
`failed_urls` and returns `None`.  Otherwise it takes the first
descendant concept matching the page's URI (an empty match set only
prints, leaving the dict empty) and folds the direct `skos:prefLabel`
children into a dict keyed by the `xml:lang` attribute. -/
def get_translations (resp : XmlResp) (page : String) (s : St) :
    Option (List (Option String × Option String)) × St :=
  if resp.status ≠ 200 then
    (none, ⟨s.count, s.failed ++ [translationDataUrl page]⟩)
  else
    match collectConcepts (conceptUri page) resp.doc with
    | [] => (some [], s)
    | c :: _ =>
      (some ((c.children.filter (fun e => e.tag = "skos:prefLabel")).foldl
        (fun d lbl => dictSet d lbl.lang lbl.text) []), s)

/-- The mapping the spec describes for translation enrichment: the
language-tag → label-text dict built from exactly the `prefLabel`
elements that are *direct* children of the given concept element. -/
def directLangMap (c : XElem) : List (Option String × Option String) :=
  pyDict ((c.children.filter (fun e => e.tag = "skos:prefLabel")).map
    (fun e => (e.lang, e.text)))

/-- One entry of the translation crawl's `results` list:
`{'Label': ..., 'Translations': ..., 'MIMOPage': ...}` (`Translations`
is `None` when `get_translations` failed). -/
structure TransEntry where
  label : String
  translations : Option (List (Option String × Option String))
  page : String
deriving DecidableEq, Repr

/-- Order on the translation dict's keys used to put the serialized keys
in a fixed order (`json.dumps(..., sort_keys=True)`). -/
def okeyLe : Option String → Option String → Prop
  | none, _ => True
  | some _, none => False
  | some a, some b => strLe a b

instance : DecidableRel okeyLe := fun a b =>
  match a, b with
  | none, _ => isTrue trivial
  | some _, none => isFalse id
  | some a, some b => inferInstanceAs (Decidable (strLe a b))

/-- `json.dumps(entry, sort_keys=True)` as a canonical form: two entries
have the same serialization iff they have the same label, the same page
and (when present) translation dicts with the same key set and values;
putting the keys in a fixed sorted order captures exactly that. -/
def serializeEntry (e : TransEntry) : TransEntry :=
  ⟨e.label, e.translations.map (List.insertionSort (fun p q => okeyLe p.1 q.1)),
    e.page⟩

/-- The recursion of `remove_duplicates`' loop, with the running `seen`
set of serializations. -/
def removeDupGo (seen : List TransEntry) : List TransEntry → List TransEntry
  | [] => []
  | e :: rest =>
    if serializeEntry e ∈ seen then removeDupGo seen rest
    else e :: removeDupGo (serializeEntry e :: seen) rest

/-- `remove_duplicates` of `translation_data.py`: keep the first entry of
each serialization, drop later exact duplicates. -/
def remove_duplicates (l : List TransEntry) : List TransEntry :=
  removeDupGo [] l

/-! ## Helper lemmas -/

theorem lexLe_refl (as : List Char) : lexLe as as = true := by
  induction as with
  | nil => rfl
  | cons a as ih => simp [lexLe, lt_irrefl, ih]

theorem strLe_refl (a : String) : strLe a a := lexLe_refl a.data

theorem removeDupGo_not_seen (seen : List TransEntry) (l : List TransEntry) :
    ∀ e ∈ removeDupGo seen l, serializeEntry e ∉ seen := by
  induction l generalizing seen with
  | nil => intro e he; simp [removeDupGo] at he
  | cons a rest ih =>
    intro e he
    by_cases h : serializeEntry a ∈ seen
    · rw [removeDupGo, if_pos h] at he
      exact ih seen e he
    · rw [removeDupGo, if_neg h] at he
      rcases List.mem_cons.mp he with rfl | he2
      · exact h
      · intro hmem
        exact ih (serializeEntry a :: seen) e he2 (List.mem_cons_of_mem _ hmem)

theorem removeDupGo_serialized_nodup (seen : List TransEntry)
    (l : List TransEntry) :
    ((removeDupGo seen l).map serializeEntry).Nodup := by
  induction l generalizing seen with
  | nil => simp [removeDupGo]
  | cons a rest ih =>
    by_cases h : serializeEntry a ∈ seen
    · rw [removeDupGo, if_pos h]; exact ih seen
    · rw [removeDupGo, if_neg h]
      refine List.Nodup.cons ?_ (ih (serializeEntry a :: seen))
      intro hmem
      obtain ⟨e, he, heq⟩ := List.mem_map.mp hmem
      exact removeDupGo_not_seen (serializeEntry a :: seen) rest e he
        (heq ▸ List.mem_cons_self _ _)

theorem removeDupGo_id (seen : List TransEntry) (l : List TransEntry)
    (hnd : (l.map serializeEntry).Nodup)
    (hdisj : ∀ e ∈ l, serializeEntry e ∉ seen) :
    removeDupGo seen l = l := by
  induction l generalizing seen with
  | nil => rfl
  | cons a rest ih =>
    rw [removeDupGo, if_neg (hdisj a (List.mem_cons_self _ _))]
    have hnd2 := hnd
    rw [List.map_cons, List.nodup_cons] at hnd2
    congr 1
    refine ih (serializeEntry a :: seen) hnd2.2 ?_
    intro e he hmem
    rcases List.mem_cons.mp hmem with heq | hseen
    · exact hnd2.1 (heq ▸ List.mem_map_of_mem serializeEntry he)
    · exact hdisj e (List.mem_cons_of_mem _ he) hseen

theorem removeDupGo_sublist (seen : List TransEntry) (l : List TransEntry) :
    (removeDupGo seen l).Sublist l := by
  induction l generalizing seen with
  | nil => exact List.Sublist.refl _
  | cons a rest ih =>
    by_cases h : serializeEntry a ∈ seen
    · rw [removeDupGo, if_pos h]
      exact List.Sublist.cons a (ih seen)
    · rw [removeDupGo, if_neg h]
      exact List.Sublist.cons₂ a (ih (serializeEntry a :: seen))

theorem removeDupGo_rep (seen : List TransEntry) (l : List TransEntry) :
    ∀ e ∈ l, serializeEntry e ∈ seen ∨
      ∃ e2 ∈ removeDupGo seen l, serializeEntry e2 = serializeEntry e := by
  induction l generalizing seen with
  | nil => intro e he; simp at he
  | cons a rest ih =>
    intro e he
    by_cases h : serializeEntry a ∈ seen
    · rw [removeDupGo, if_pos h]
      rcases List.mem_cons.mp he with rfl | he2
      · exact Or.inl h
      · exact ih seen e he2
    · rw [removeDupGo, if_neg h]
      rcases List.mem_cons.mp he with rfl | he2
      · exact Or.inr ⟨e, List.mem_cons_self _ _, rfl⟩
      · rcases ih (serializeEntry a :: seen) e he2 with hseen | ⟨e2, he3, heq⟩
        · rcases List.mem_cons.mp hseen with heq2 | hseen2
          · exact Or.inr ⟨a, List.mem_cons_self _ _, heq2.symm⟩
          · exact Or.inl hseen2
        · exact Or.inr ⟨e2, List.mem_cons_of_mem _ he3, heq⟩

theorem getLast?_orderedInsert (x : String) (s : List String)
    (hs : s.Pairwise lenLe) :
    (List.orderedInsert lenLe x s).getLast? =
      some (match s.getLast? with
            | none => x
            | some y => if lenLe x y then y else x) := by
  induction s with
  | nil => rfl
  | cons b t ih =>
    rw [List.pairwise_cons] at hs
    simp only [List.orderedInsert]
    by_cases hxb : lenLe x b
    · rw [if_pos hxb, List.getLast?_cons_cons]
      cases ht : t.getLast? with
      | none =>
        rw [List.getLast?_eq_none_iff] at ht
        subst ht
        simp [hxb]
      | some z =>
        have hz : z ∈ t := by
          have := List.mem_of_mem_getLast? (l := t) (a := z)
          exact this (by rw [ht]; exact rfl)
        have hbz : lenLe b z := hs.1 z hz
        have hxz : lenLe x z := Trans.trans hxb hbz
        have hlast : (b :: t).getLast? = some z := by
          cases t with
          | nil => simp at ht
          | cons c u => rw [List.getLast?_cons_cons, ht]
        rw [hlast]
        simp [hxz]
    · rw [if_neg hxb]
      have hne : List.orderedInsert lenLe x t ≠ [] := by
        intro hcon
        have := List.orderedInsert_length lenLe t x
        rw [hcon] at this
        simp at this
      have hcc : (b :: List.orderedInsert lenLe x t).getLast? =
          (List.orderedInsert lenLe x t).getLast? := by
        cases hoi : List.orderedInsert lenLe x t with
        | nil => exact absurd hoi hne
        | cons c u => rw [List.getLast?_cons_cons]
      rw [hcc, ih hs.2]
      cases ht : t.getLast? with
      | none =>
        rw [List.getLast?_eq_none_iff] at ht
        subst ht
        simp [hxb]
      | some z =>
        have hlast : (b :: t).getLast? = some z := by
          cases t with
          | nil => simp at ht
          | cons c u => rw [List.getLast?_cons_cons, ht]
        rw [hlast]

theorem pySortedByLen_getLast (l : List String) (hne : l ≠ []) :
    ∃ d l1 l2, (pySortedByLen l).getLast? = some d ∧ l = l1 ++ d :: l2 ∧
      (∀ t ∈ l, t.length ≤ d.length) ∧ (∀ t ∈ l2, t.length < d.length) := by
  induction l with
  | nil => exact absurd rfl hne
  | cons x xs ih =>
    by_cases hxs : xs = []
    · subst hxs
      refine ⟨x, [], [], rfl, by simp, ?_, by simp⟩
      intro t ht
      simp at ht
      simp [ht]
    · obtain ⟨d, m1, m2, hlast, hsplit, hmax, hafter⟩ := ih hxs
      have hsorted : (pySortedByLen xs).Pairwise lenLe :=
        List.sorted_insertionSort lenLe xs
      have hstep : (pySortedByLen (x :: xs)).getLast? =
          some (if lenLe x d then d else x) := by
        show (List.orderedInsert lenLe x (pySortedByLen xs)).getLast? = _
        rw [getLast?_orderedInsert x (pySortedByLen xs) hsorted, hlast]
      by_cases hxd : lenLe x d
      · refine ⟨d, x :: m1, m2, by rw [hstep, if_pos hxd], by rw [hsplit]; rfl, ?_, hafter⟩
        intro t ht
        rcases List.mem_cons.mp ht with rfl | ht2
        · exact hxd
        · exact hmax t ht2
      · refine ⟨x, [], xs, by rw [hstep, if_neg hxd], by simp, ?_, ?_⟩
        · intro t ht
          rcases List.mem_cons.mp ht with rfl | ht2
          · exact le_refl _
          · exact le_of_lt (lt_of_le_of_lt (hmax t ht2) (Nat.lt_of_not_le hxd))
        · intro t ht
          exact lt_of_le_of_lt (hmax t ht) (Nat.lt_of_not_le hxd)

theorem orderedInsert_congr {α : Type} (r1 r2 : α → α → Prop)
    [DecidableRel r1] [DecidableRel r2] (x : α) (s : List α)
    (hagree : ∀ b ∈ s, (r1 x b ↔ r2 x b)) :
    List.orderedInsert r1 x s = List.orderedInsert r2 x s := by
  induction s with
  | nil => rfl
  | cons b t ih =>
    simp only [List.orderedInsert]
    by_cases h : r1 x b
    · rw [if_pos h, if_pos ((hagree b (List.mem_cons_self _ _)).mp h)]
    · rw [if_neg h, if_neg (fun h2 => h ((hagree b (List.mem_cons_self _ _)).mpr h2))]
      rw [ih (fun c hc => hagree c (List.mem_cons_of_mem _ hc))]

theorem insertionSort_congr {α : Type} (r1 r2 : α → α → Prop)
    [DecidableRel r1] [DecidableRel r2] (l : List α)
    (hagree : ∀ a ∈ l, ∀ b ∈ l, (r1 a b ↔ r2 a b)) :
    List.insertionSort r1 l = List.insertionSort r2 l := by
  induction l with
  | nil => rfl
  | cons x xs ih =>
    simp only [List.insertionSort]
    rw [ih (fun a ha b hb => hagree a (List.mem_cons_of_mem _ ha)
      b (List.mem_cons_of_mem _ hb))]
    refine orderedInsert_congr r1 r2 x _ ?_
    intro b hb
    have hb2 : b ∈ xs := (List.perm_insertionSort r2 xs).mem_iff.mp hb
    exact hagree x (List.mem_cons_self _ _) b (List.mem_cons_of_mem _ hb2)

theorem idxOf_lt_length {k : String} {l : List String} (h : k ∈ l) :
    idxOf k l < l.length := by
  induction l with
  | nil => simp at h
  | cons a rest ih =>
    by_cases ha : a = k
    · simp [idxOf, ha]
    · rcases List.mem_cons.mp h with rfl | h2
      · exact absurd rfl ha
      · simpa [idxOf, ha] using ih h2

theorem get_idxOf {k : String} {l : List String} (h : k ∈ l)
    (hlt : idxOf k l < l.length) : l.get ⟨idxOf k l, hlt⟩ = k := by
  induction l with
  | nil => simp at h
  | cons a rest ih =>
    by_cases ha : a = k
    · simp [idxOf, ha]
    · rcases List.mem_cons.mp h with rfl | h2
      · exact absurd rfl ha
      · have hlt2 : idxOf k rest < rest.length := idxOf_lt_length h2
        simpa [idxOf, ha] using ih h2 hlt2

theorem idxOf_le_iff {K : List String}
    (hs : K.Pairwise (fun a b => strLe a b ∧ a ≠ b))
    {a b : String} (ha : a ∈ K) (hb : b ∈ K) :
    (idxOf a K ≤ idxOf b K ↔ strLe a b) := by
  have hia := idxOf_lt_length ha
  have hib := idxOf_lt_length hb
  have hga := get_idxOf ha hia
  have hgb := get_idxOf hb hib
  have hsg := List.pairwise_iff_get.mp hs
  constructor
  · intro hle
    rcases Nat.lt_or_ge (idxOf a K) (idxOf b K) with hlt | hge
    · have := hsg ⟨idxOf a K, hia⟩ ⟨idxOf b K, hib⟩ hlt
      rw [hga, hgb] at this
      exact this.1
    · have heq : idxOf a K = idxOf b K := Nat.le_antisymm hle hge
      have : a = b := by
        rw [← hga, ← hgb]
        congr 1
        exact Fin.ext heq
      rw [this]
      exact strLe_refl b
  · intro hab
    by_contra hgt
    have hlt : idxOf b K < idxOf a K := Nat.lt_of_not_le hgt
    have := hsg ⟨idxOf b K, hib⟩ ⟨idxOf a K, hia⟩ hlt
    rw [hga, hgb] at this
    exact this.2 (strLe_antisymm this.1 hab)

theorem pyKeysSorted_pairwise {keys : List String} (hnd : keys.Nodup) :
    (pyKeysSorted keys).Pairwise (fun a b => strLe a b ∧ a ≠ b) := by
  have hsorted : (pyKeysSorted keys).Pairwise strLe :=
    List.sorted_insertionSort strLe keys
  have hnd2 : (pyKeysSorted keys).Nodup :=
    (List.perm_insertionSort strLe keys).nodup_iff.mpr hnd
  exact hsorted.and hnd2

theorem pyDict_aux {V : Type} (l d : List (String × V))
    (h : (d.map Prod.fst ++ l.map Prod.fst).Nodup) :
    l.foldl (fun d2 p => dictSet d2 p.1 p.2) d = d ++ l := by
  induction l generalizing d with
  | nil => simp
  | cons p rest ih =>
    have hnotin : p.1 ∉ d.map Prod.fst := by
      intro hmem
      have := (List.nodup_append.mp h).2.2
      exact this hmem (by simp)
    have hset : dictSet d p.1 p.2 = d ++ [p] := by
      unfold dictSet
      rw [if_neg]
      intro hany
      rw [List.any_eq_true] at hany
      obtain ⟨q, hq, heq⟩ := hany
      exact hnotin (by
        rw [decide_eq_true_iff] at heq
        exact heq ▸ List.mem_map_of_mem Prod.fst hq)
    show List.foldl (fun d2 p => dictSet d2 p.1 p.2) (dictSet d p.1 p.2) rest
        = d ++ p :: rest
    rw [hset, ih (d ++ [p]) (by simpa using h)]
    simp

theorem pyDict_id {V : Type} (l : List (String × V))
    (h : (l.map Prod.fst).Nodup) : pyDict l = l := by
  unfold pyDict
  rw [pyDict_aux l [] (by simpa using h)]
  simp

/-! ## Concrete environments used by witnesses and counterexamples -/

/-- A small healthy remote service: one top concept with children, a
hierarchy body without the expected key, a description page with one
candidate text, a mappings endpoint answering `null`. -/
def demoEnv : Env where
  topConcepts :=
    ⟨200, ⟨[⟨"http://www.mimo-db.eu/HornbostelAndSachs/11", "Idiophones", "1", true⟩]⟩⟩
  hierarchy := fun _ => ⟨200, ⟨none⟩⟩
  descPage := fun _ => ⟨200, ["Instruments set in vibration"]⟩
  mappingsApi := fun _ => ⟨200, ⟨none⟩⟩

/-- A remote service whose endpoints all fail. -/
def failEnv : Env where
  topConcepts := ⟨500, ⟨[]⟩⟩
  hierarchy := fun _ => ⟨500, ⟨none⟩⟩
  descPage := fun _ => ⟨404, []⟩
  mappingsApi := fun _ => ⟨500, ⟨none⟩⟩

/-- A remote service whose mappings endpoint returns two mapping entries. -/
def mapEnv : Env where
  topConcepts := ⟨200, ⟨[]⟩⟩
  hierarchy := fun _ => ⟨200, ⟨none⟩⟩
  descPage := fun _ => ⟨200, ["d"]⟩
  mappingsApi := fun _ => ⟨200, ⟨some [⟨"Bell"⟩, ⟨"Gong"⟩]⟩⟩

/-! ## Claims -/

/-- Claim C1: on a non-2xx hierarchy response `fetch_hierarchy` does record the
failing URL and return `None` — but the caller `process_hierarchy` does
not stop the branch normally: evaluating
`'broaderTransitive' not in hierarchy_data` with `hierarchy_data = None`
raises `TypeError`, so the crawl aborts instead of continuing
(`MAX_COUNT` is at its default `-1` here, so the cap guard does not
mask the crash). -/
theorem C1_hierarchy_fetch_failure_crashes_caller (env : Env) (page : String)
    (d : Nat) (uri : Option String) (s s2 : St)
    (hfail : (env.hierarchy page).status ≠ 200) :
    fetch_hierarchy env page s =
      (none, ⟨s.count, s.failed ++ [hierarchyUrl page]⟩) ∧
    processHierarchy env (-1) (fetch_hierarchy env page s).1 d uri s2 =
      Except.error PyError.typeError := by
  have hf : fetch_hierarchy env page s =
      (none, ⟨s.count, s.failed ++ [hierarchyUrl page]⟩) := by
    unfold fetch_hierarchy
    rw [if_pos hfail]
  refine ⟨hf, ?_⟩
  rw [hf]
  unfold processHierarchy
  rw [if_neg (by intro hcon; exact hcon.1 rfl)]

/-- Claim C1 witness: a concrete failing hierarchy endpoint. -/
theorem C1_witness :
    fetch_hierarchy failEnv "11" ⟨0, []⟩ =
      (none, ⟨0, [hierarchyUrl "11"]⟩) ∧
    processHierarchy failEnv (-1) (fetch_hierarchy failEnv "11" ⟨0, []⟩).1
      0 none ⟨0, []⟩ = Except.error PyError.typeError :=
  C1_hierarchy_fetch_failure_crashes_caller failEnv "11" 0 none ⟨0, []⟩ ⟨0, []⟩
    (by decide)

/-- Claim C2: on a non-2xx description-page response `get_description_from_uri`
does not append the URL to the failed list and does not return a
placeholder — the `return` statement references the never-assigned
`li_texts` and raises `UnboundLocalError`, which propagates and kills
the crawl. -/
theorem C2_description_failure_raises (resp : HtmlResp)
    (hfail : resp.status ≠ 200) :
    get_description_from_uri resp = Except.error PyError.unboundLocalError := by
  unfold get_description_from_uri
  rw [if_neg hfail]

/-- Claim C2 witness: a concrete 404 description page. -/
theorem C2_witness :
    get_description_from_uri ⟨404, []⟩ =
      Except.error PyError.unboundLocalError :=
  C2_description_failure_raises ⟨404, []⟩ (by decide)

/-- Claim C3 (amended): once the counter has reached a cap `C ≠ -1`,
`process_hierarchy` returns immediately: nothing is emitted, fetched,
recorded or expanded. -/
theorem C3_cap_reached_stops_expansion (env : Env) (mc : Int)
    (hd : Option HierarchyData) (d : Nat) (uri : Option String) (s : St)
    (hmc : mc ≠ -1) (hcap : mc ≤ (s.count : Int)) :
    processHierarchy env mc hd d uri s = Except.ok s := by
  unfold processHierarchy
  rw [if_pos ⟨hmc, hcap⟩]

/-- Claim C3 witness: cap 0 already reached. -/
theorem C3_witness :
    processHierarchy demoEnv 0 none 0 none ⟨2, []⟩ = Except.ok ⟨2, []⟩ :=
  C3_cap_reached_stops_expansion demoEnv 0 none 0 none ⟨2, []⟩
    (by decide) (by decide)

/-- Claim C3 counterexample: with the cap `C = 0` the crawl still visits one
node, because `main` emits the top concept into `results` before the
counter is checked; so "visits at most `C` nodes for every `C ≥ 0`" is
false. -/
theorem C3_counterexample :
    mainRun demoEnv 0 =
      Except.ok ([("1", ⟨"Idiophones", [], "Instruments set in vibration", "11"⟩)], []) ∧
    ¬ ∀ out fl, mainRun demoEnv 0 = Except.ok (out, fl) → out.length ≤ 0 := by
  refine ⟨by rfl, ?_⟩
  intro hall
  have h1 := hall
    [("1", ⟨"Idiophones", [], "Instruments set in vibration", "11"⟩)] []
    (by rfl)
  simp at h1

/-- Claim C4: a narrower child descriptor reached by `process_hierarchy` is
never successfully emitted, whatever its `hasChildren` flag: after the
enrichment calls, the assignment `results[child_notation] = {...}`
targets the module-level `results`, which is a list, and raises
`TypeError` (the dict written by `main` is a distinct local variable). -/
theorem C4_child_visit_raises (env : Env) (u dsc : String) (c : ChildEntry)
    (s : St)
    (hdesc : get_description_from_uri (env.descPage c.uri) = Except.ok dsc) :
    processHierarchy env (-1) (some ⟨some [(u, ⟨some [c]⟩)]⟩) 0 none s =
      Except.error PyError.typeError := by
  unfold processHierarchy
  rw [if_neg (by intro hcon; exact hcon.1 rfl)]
  show uriLoop env [(u, ⟨some [c]⟩)] [u] s = _
  simp [uriLoop, assocFind, childrenLoop, hdesc]

/-- Claim C4 witness: a concrete child with `hasChildren == False` whose visit
raises instead of emitting. -/
theorem C4_witness :
    processHierarchy demoEnv (-1)
      (some ⟨some [("http://www.mimo-db.eu/HornbostelAndSachs/11",
        ⟨some [⟨"http://www.mimo-db.eu/HornbostelAndSachs/12", "Drums", "211",
          false⟩]⟩)]⟩) 0 none ⟨0, []⟩ =
      Except.error PyError.typeError :=
  C4_child_visit_raises demoEnv "http://www.mimo-db.eu/HornbostelAndSachs/11"
    "Instruments set in vibration"
    ⟨"http://www.mimo-db.eu/HornbostelAndSachs/12", "Drums", "211", false⟩
    ⟨0, []⟩ (by rfl)

/-- Claim C5: on a 200 description page with a non-empty candidate list,
`get_description_from_uri` returns a candidate of maximal character
length, and specifically the one occurring last in source order among
those of maximal length (every later candidate is strictly shorter). -/
theorem C5_description_selection (resp : HtmlResp) (h200 : resp.status = 200)
    (hne : resp.texts ≠ []) :
    ∃ d l1 l2, get_description_from_uri resp = Except.ok d ∧
      resp.texts = l1 ++ d :: l2 ∧
      (∀ t ∈ resp.texts, t.length ≤ d.length) ∧
      (∀ t ∈ l2, t.length < d.length) := by
  obtain ⟨d, l1, l2, hlast, hsplit, hmax, hafter⟩ :=
    pySortedByLen_getLast resp.texts hne
  refine ⟨d, l1, l2, ?_, hsplit, hmax, hafter⟩
  unfold get_description_from_uri
  rw [if_pos h200, hlast]

/-- Claim C5 witness: equal-length candidates; the later one is selected. -/
theorem C5_witness :
    (∃ d l1 l2,
      get_description_from_uri ⟨200, ["abc", "xyz"]⟩ = Except.ok d ∧
      ["abc", "xyz"] = l1 ++ d :: l2 ∧
      (∀ t ∈ ["abc", "xyz"], t.length ≤ d.length) ∧
      (∀ t ∈ l2, t.length < d.length)) ∧
    get_description_from_uri ⟨200, ["abc", "xyz"]⟩ = Except.ok "xyz" :=
  ⟨C5_description_selection ⟨200, ["abc", "xyz"]⟩ rfl (by decide), by rfl⟩

/-- Claim C6: on a 200 `data` response whose document contains exactly one
concept element matching the requested node's URI, `get_translations`
returns exactly the language-tag → label-text mapping built from the
`prefLabel` elements that are direct children of that concept
(`directLangMap`); labels nested under other concepts in the same
document are excluded, and the failed-URL list is untouched. -/
theorem C6_translation_extraction (resp : XmlResp) (page : String) (s : St)
    (c : XElem) (h200 : resp.status = 200)
    (huniq : collectConcepts (conceptUri page) resp.doc = [c]) :
    get_translations resp page s = (some (directLangMap c), s) := by
  unfold get_translations
  rw [if_neg (by simp [h200]), huniq]
  unfold directLangMap pyDict
  rw [List.foldl_map]

/-- The concept element of the C6 witness document: two direct
language-tagged labels and a nested foreign concept carrying a third
label that must be ignored. -/
def fluteConcept : XElem :=
  XElem.node "skos:Concept" (some "http://www.mimo-db.eu/InstrumentsKeywords/2295")
    none none
    [XElem.node "skos:prefLabel" none (some "en") (some "Flute") [],
     XElem.node "skos:prefLabel" none (some "de") (some "Flöte") [],
     XElem.node "skos:Concept" (some "http://www.mimo-db.eu/InstrumentsKeywords/9999")
       none none
       [XElem.node "skos:prefLabel" none (some "fr") (some "Flûte") []]]

/-- The C6 witness document. -/
def fluteDoc : XElem := XElem.node "rdf:RDF" none none none [fluteConcept]

/-- Claim C6 witness: the scenario-B document yields exactly
`{en: "Flute", de: "Flöte"}`. -/
theorem C6_witness :
    get_translations ⟨200, fluteDoc⟩ "2295" ⟨0, []⟩ =
      (some (directLangMap fluteConcept), ⟨0, []⟩) ∧
    directLangMap fluteConcept =
      [(some "en", some "Flute"), (some "de", some "Flöte")] :=
  ⟨C6_translation_extraction ⟨200, fluteDoc⟩ "2295" ⟨0, []⟩ fluteConcept
    rfl (by rfl), by rfl⟩

/-- Claim C7: on a results dict (distinct keys), `sort_results` is observably a
plain stable sort of the items by key under default string comparison:
it returns exactly the same key-value pairs, reordered into ascending
key order. -/
theorem C7_sort_results_eq_plain_sort {V : Type} (results : List (String × V))
    (hnd : (results.map Prod.fst).Nodup) :
    sort_results results =
      List.insertionSort (fun x y => strLe x.1 y.1) results ∧
    (sort_results results).Perm results := by
  have hpair := pyKeysSorted_pairwise hnd
  have hagree : ∀ a ∈ results, ∀ b ∈ results,
      ((fun (x y : String × V) =>
        idxOf x.1 (pyKeysSorted (results.map Prod.fst)) ≤
          idxOf y.1 (pyKeysSorted (results.map Prod.fst))) a b ↔
        strLe a.1 b.1) := by
    intro a ha b hb
    refine idxOf_le_iff hpair ?_ ?_
    · exact (List.perm_insertionSort strLe _).mem_iff.mpr
        (List.mem_map_of_mem Prod.fst ha)
    · exact (List.perm_insertionSort strLe _).mem_iff.mpr
        (List.mem_map_of_mem Prod.fst hb)
  have heq : sort_results results =
      pyDict (List.insertionSort (fun x y => strLe x.1 y.1) results) := by
    unfold sort_results
    show pyDict (List.insertionSort (fun x y =>
      idxOf x.1 (pyKeysSorted (results.map Prod.fst)) ≤
        idxOf y.1 (pyKeysSorted (results.map Prod.fst))) results) = _
    rw [insertionSort_congr _ _ results hagree]
  have hknd : ((List.insertionSort (fun (x y : String × V) => strLe x.1 y.1)
      results).map Prod.fst).Nodup := by
    have hperm := (List.perm_insertionSort
      (fun (x y : String × V) => strLe x.1 y.1) results).map Prod.fst
    exact hperm.nodup_iff.mpr hnd
  rw [heq, pyDict_id _ hknd]
  exact ⟨rfl, List.perm_insertionSort _ _⟩

/-- Claim C7 witness: notation codes "111" and "112" end up in ascending order
whatever the discovery order. -/
theorem C7_witness :
    (sort_results [("112", 1), ("111", 2)] =
      List.insertionSort (fun x y => strLe x.1 y.1) [("112", 1), ("111", 2)] ∧
      (sort_results [("112", 1), ("111", 2)]).Perm [("112", 1), ("111", 2)]) ∧
    sort_results [("112", 1), ("111", 2)] = [("111", 2), ("112", 1)] :=
  ⟨C7_sort_results_eq_plain_sort [("112", 1), ("111", 2)] (by decide), by rfl⟩

/-- Claim C8: `remove_duplicates` is idempotent (a fixed point on its own
output), removes an entry only in favour of an earlier entry with the
identical canonical serialization (every input entry keeps a
representative with its serialization in the output), and otherwise
preserves the list (the output is a sublist of the input). -/
theorem C8_dedup_idempotent_exact (l : List TransEntry) :
    remove_duplicates (remove_duplicates l) = remove_duplicates l ∧
    (remove_duplicates l).Sublist l ∧
    ∀ e ∈ l, ∃ e2 ∈ remove_duplicates l,
      serializeEntry e2 = serializeEntry e := by
  refine ⟨?_, removeDupGo_sublist [] l, ?_⟩
  · exact removeDupGo_id [] (removeDupGo [] l)
      (removeDupGo_serialized_nodup [] l) (by simp)
  · intro e he
    rcases removeDupGo_rep [] l e he with hseen | hrep
    · simp at hseen
    · exact hrep

/-- Claim C9: a hierarchy response that is a mapping but lacks the
`broaderTransitive` key makes `process_hierarchy` return normally with
the state untouched: zero children visited, nothing appended to
`failed_urls`, no exception. -/
theorem C9_missing_key_recoverable (env : Env) (mc : Int) (h : HierarchyData)
    (d : Nat) (uri : Option String) (s : St)
    (hk : h.broaderTransitive = none) :
    processHierarchy env mc (some h) d uri s = Except.ok s := by
  obtain ⟨bt⟩ := h
  change bt = none at hk
  subst hk
  unfold processHierarchy
  split <;> rfl

/-- Claim C9 witness: a concrete keyless hierarchy body. -/
theorem C9_witness :
    processHierarchy demoEnv (-1) (some ⟨none⟩) 0 none ⟨0, []⟩ =
      Except.ok ⟨0, []⟩ :=
  C9_missing_key_recoverable demoEnv (-1) ⟨none⟩ 0 none ⟨0, []⟩ rfl

/-- Claim C10: on a 200 mappings response, `get_instrument_names_for_page`
returns `[]` with no failed URL recorded when the `mappings` field is
`null`, and the `prefLabel` of every mapping entry in source order when
it is a list. -/
theorem C10_mappings_enrichment (env : Env) (page : String) (s : St)
    (h200 : (env.mappingsApi page).status = 200) :
    ((env.mappingsApi page).body.mappings = none →
      get_instrument_names_for_page env page s = ([], s)) ∧
    ∀ ms, (env.mappingsApi page).body.mappings = some ms →
      get_instrument_names_for_page env page s =
        (ms.map MappingEntry.prefLabel, s) := by
  constructor
  · intro hnone
    unfold get_instrument_names_for_page
    rw [if_neg (by simp [h200])]
    rw [hnone]
  · intro ms hms
    unfold get_instrument_names_for_page
    rw [if_neg (by simp [h200])]
    rw [hms]

/-- Claim C10 witness: a concrete endpoint answering two mapping entries (and,
vacuously at this input, the `null` clause). -/
theorem C10_witness :
    ((mapEnv.mappingsApi "7").body.mappings = none →
      get_instrument_names_for_page mapEnv "7" ⟨0, []⟩ = ([], ⟨0, []⟩)) ∧
    ∀ ms, (mapEnv.mappingsApi "7").body.mappings = some ms →
      get_instrument_names_for_page mapEnv "7" ⟨0, []⟩ =
        (ms.map MappingEntry.prefLabel, ⟨0, []⟩) :=
  C10_mappings_enrichment mapEnv "7" ⟨0, []⟩ (by rfl)

end MIC
